import Mathlib

/-!
Verification development for the note identity and referential-integrity
engine of the lumen note-taking application.

Strings from the TypeScript source are embedded as lists of characters
(`Str`).  Pure functions of the source are translated into computable Lean
functions; the reactive hooks `useRenameNote` and `useMoveNotesToFolder`
are translated into pure functions from a file-set snapshot (an
association list from storage key to content, mirroring the JS object
`markdownFiles`) to a result together with the proposed mutation batch and
the updated virtual-folder ledger.

Functions of the repository whose source file is not available
(`isValidNoteId`, `updateWikilinks`, the persistence collaborator) are
modelled from the specification; their doc comments say so explicitly.
-/

/-- Strings of the TypeScript source, embedded as lists of characters. -/
abbrev Str := List Char

/-- The `.md` storage-key suffix: a note id `x` is stored at key `x.md`. -/
def mdExt : Str := ['.', 'm', 'd']

/-! ## Slug/ID engine (src/hooks/create-new-note.ts) -/

/-- The character class matched by the JavaScript regex `\s`
(whitespace, including the Unicode space characters). -/
def jsWhitespaceChars : List Char :=
  [' ', '\t', '\n', '\r', '\x0b', '\x0c', ' ', ' ', ' ',
   ' ', ' ', ' ', ' ', ' ', ' ', ' ',
   ' ', ' ', ' ', ' ', ' ', ' ', ' ',
   '　', '﻿']

/-- `\s` as a Boolean predicate on characters. -/
def jsWhitespace (c : Char) : Bool := jsWhitespaceChars.contains c

/-- `String.prototype.toLowerCase` restricted to the ASCII range
(the only range exercised by the slug engine's character set). -/
def jsToLower (c : Char) : Char :=
  if 65 ≤ c.toNat ∧ c.toNat ≤ 90 then Char.ofNat (c.toNat + 32) else c

/-- `String.prototype.trim`: drop leading and trailing whitespace. -/
def trimList (l : Str) : Str :=
  ((l.dropWhile jsWhitespace).reverse.dropWhile jsWhitespace).reverse

/-- `replace(/p+/g, rep)` for a character class `p`: every maximal run of
`p`-characters becomes the single character `rep`.  The Boolean argument
records whether the previous character was part of a run. -/
def collapseRuns (p : Char → Bool) (rep : Char) : Str → Bool → Str
  | [], _ => []
  | c :: cs, inRun =>
    if p c then
      if inRun then collapseRuns p rep cs true
      else rep :: collapseRuns p rep cs true
    else c :: collapseRuns p rep cs false

/-- The `^-` half of `replace(/^-|-$/g, "")`: drop one leading dash. -/
def stripLeadDash : Str → Str
  | [] => []
  | c :: rest => if c = '-' then rest else c :: rest

/-- The `-$` half of `replace(/^-|-$/g, "")`: drop one trailing dash. -/
def stripTrailDash : Str → Str
  | [] => []
  | [c] => if c = '-' then [] else [c]
  | c :: c' :: rest => c :: stripTrailDash (c' :: rest)

/-- `slugifySegment` from src/hooks/create-new-note.ts:
trim, lowercase, whitespace runs to a dash, collapse dash runs,
strip one leading and one trailing dash. -/
def slugifySegment (s : Str) : Str :=
  stripTrailDash (stripLeadDash
    (collapseRuns (fun c => c == '-') '-'
      (collapseRuns jsWhitespace '-' ((trimList s).map jsToLower) false) false))

/-- `String.prototype.split(sep)` (single-character separator). -/
def splitOnChar (sep : Char) : Str → List Str
  | [] => [[]]
  | c :: rest =>
    if c = sep then [] :: splitOnChar sep rest
    else
      match splitOnChar sep rest with
      | [] => [[c]]
      | s :: ss => (c :: s) :: ss

/-- `Array.prototype.join(sep)` (single-character separator). -/
def intercalateChar (sep : Char) : List Str → Str
  | [] => []
  | [s] => s
  | s :: ss => s ++ sep :: intercalateChar sep ss

/-- `toSlug` from src/hooks/create-new-note.ts: split on `/`, slugify each
piece, drop empty pieces, rejoin with `/`. -/
def toSlug (l : Str) : Str :=
  intercalateChar '/' (((splitOnChar '/' l).map slugifySegment).filter
    (fun s => !s.isEmpty))

/-! ## Note-id validation (src/utils/note-id, not in the source drop) -/

/-- Characters allowed inside a valid note-id segment:
lowercase ASCII letters, digits, and the dash. -/
def isSegChar (c : Char) : Bool :=
  (decide (97 ≤ c.toNat) && decide (c.toNat ≤ 122)) ||
  (decide (48 ≤ c.toNat) && decide (c.toNat ≤ 57)) ||
  c == '-'

/-- No two consecutive dashes occur in the list. -/
def noDoubleDash : Str → Bool
  | [] => true
  | [_] => true
  | a :: b :: rest => !(a == '-' && b == '-') && noDoubleDash (b :: rest)

/-- A valid note-id segment: non-empty, only lowercase letters, digits and
dashes, no leading or trailing dash, no consecutive dashes. -/
def validSegment (s : Str) : Bool :=
  !s.isEmpty && s.all isSegChar &&
  !(s.head? == some '-') && !(s.getLast? == some '-') && noDoubleDash s

/-- Modelled from the spec: `isValidNoteId` (src/utils/note-id is not in
the source drop).  True iff every `/`-separated segment is a valid
segment; splitting always yields at least one segment, and the empty
string fails because its sole segment is empty. -/
def isValidNoteId (l : Str) : Bool := (splitOnChar '/' l).all validSegment

example : slugifySegment "  Projects  ".toList = "projects".toList := by decide
example : toSlug "Projects / Foo".toList = "projects/foo".toList := by decide
example : toSlug "_".toList = "_".toList := by decide
example : isValidNoteId "a/b-c".toList = true := by decide
example : isValidNoteId "_".toList = false := by decide
example : isValidNoteId "a//b".toList = false := by decide
example : isValidNoteId "".toList = false := by decide
example : isValidNoteId "a-".toList = false := by decide
example : isValidNoteId "a--b".toList = false := by decide

/-! ## Wikilink rewriter (src/utils/update-wikilinks, not in the source drop) -/

/-- A character that may appear in the id part of a wikilink:
anything other than the alias separator or the closing bracket. -/
def linkIdChar (c : Char) : Bool := !(c == '|' || c == ']')

/-- After the id part, a well-formed wikilink continues with either an
alias separator or the closing brackets. -/
def linkDelim : Str → Bool
  | '|' :: _ => true
  | ']' :: ']' :: _ => true
  | _ => false

/-- Modelled from the spec: the Wikilink Rewriter
(src/utils/update-wikilinks is not in the source drop).  Scans the content
for `[[id]]` / `[[id|alias]]` tokens; when the embedded id equals `oldId`
it is replaced by `newId`, preserving the alias and all surrounding text;
content without a reference to `oldId` comes back unchanged.  The fuel
argument (initialised to the content length, which bounds every recursive
call) keeps the recursion structural. -/
def updateWikilinksAux (oldId newId : Str) : Nat → Str → Str
  | 0, l => l
  | _ + 1, [] => []
  | fuel + 1, '[' :: '[' :: rest =>
    let idPart := rest.takeWhile linkIdChar
    let after := rest.dropWhile linkIdChar
    if idPart == oldId && linkDelim after then
      '[' :: '[' :: (newId ++ updateWikilinksAux oldId newId fuel after)
    else
      '[' :: '[' :: updateWikilinksAux oldId newId fuel rest
  | fuel + 1, c :: rest => c :: updateWikilinksAux oldId newId fuel rest

/-- `updateWikilinks({ fileContent, oldId, newId })`. -/
def updateWikilinks (oldId newId content : Str) : Str :=
  updateWikilinksAux oldId newId content.length content

/-- Whether `pat` occurs as a contiguous substring of the content. -/
def hasInfix (pat : Str) : Str → Bool
  | [] => pat.isEmpty
  | c :: rest => pat.isPrefixOf (c :: rest) || hasInfix pat rest

/-- Modelled from the spec: the content references note `id` when it
contains a wikilink `[[id]]` or `[[id|alias]]` naming that id. -/
def referencesId (content id : Str) : Bool :=
  hasInfix ('[' :: '[' :: (id ++ [']', ']'])) content ||
  hasInfix ('[' :: '[' :: (id ++ ['|'])) content

example :
    updateWikilinks "notes/draft".toList "notes/final".toList
      "see [[notes/draft|My Draft]] ok".toList
      = "see [[notes/final|My Draft]] ok".toList := by decide
example :
    updateWikilinks "a/b".toList "c".toList "link [[a/bc]]".toList
      = "link [[a/bc]]".toList := by decide
example : referencesId "see [[b]]".toList "b".toList = true := by decide
example : referencesId "see [[bc]]".toList "b".toList = false := by decide

/-! ## Mutation batches and the persistence collaborator -/

/-- A mutation batch: storage key to new content, or `none` for the
deletion tombstone (the JS `Record<string, string | null>`). -/
abbrev Batch := List (Str × Option Str)

/-- JS object assignment `obj[k] = v`: replace the value in place when the
key is present, otherwise append the new key at the end. -/
def objSet (b : List (Str × α)) (k : Str) (v : α) : List (Str × α) :=
  match b with
  | [] => [(k, v)]
  | (k', v') :: rest =>
    if k' = k then (k', v) :: rest else (k', v') :: objSet rest k v

/-- Modelled from the spec: the persistence collaborator applies a batch
atomically, writing each keyed content and deleting each tombstoned key. -/
def applyBatch (files : List (Str × Str)) (b : Batch) : List (Str × Str) :=
  b.foldl
    (fun fs kv =>
      match kv.2 with
      | some c => objSet fs kv.1 c
      | none => fs.filter (fun f => !(f.1 == kv.1)))
    files

/-! ## Rename engine (useRenameNote in src/unnamed/part_000) -/

/-- The discriminated result of `useRenameNote`. -/
inductive RenameResult where
  | success
  | noOp
  | invalid
  | duplicate
  deriving DecidableEq

/-- JS truthiness of `markdownFiles[path]`: present with non-empty content. -/
def truthy : Option Str → Bool
  | some c => !c.isEmpty
  | none => false

/-- The `for (const [filepath, content] of Object.entries(markdownFiles))`
loop of the rename engine: skip the old file, rewrite every other file,
record only the files whose content changed. -/
def buildRenameRewrites (oldFilepath oldName newName : Str) :
    List (Str × Str) → Batch
  | [] => []
  | (fp, c) :: rest =>
    if fp = oldFilepath then buildRenameRewrites oldFilepath oldName newName rest
    else
      let nc := updateWikilinks oldName newName c
      if nc = c then buildRenameRewrites oldFilepath oldName newName rest
      else (fp, some nc) :: buildRenameRewrites oldFilepath oldName newName rest

/-- The rename engine (`useRenameNote`): guards, then the batch of
rewrites, the renamed file under the new key, and the tombstone for the
old key when a file existed there.  The second component is the batch
handed to the persistence collaborator (`none` when nothing is sent). -/
def renameNote (files : List (Str × Str)) (oldName newName content : Str) :
    RenameResult × Option Batch :=
  let oldFilepath := oldName ++ mdExt
  let newFilepath := newName ++ mdExt
  if oldName = [] ∨ newName = [] ∨ oldName = newName then (.noOp, none)
  else if !isValidNoteId newName then (.invalid, none)
  else if newFilepath ≠ oldFilepath ∧ truthy (List.lookup newFilepath files) then
    (.duplicate, none)
  else
    let oldFileExists := (List.lookup oldFilepath files).isSome
    let b1 := buildRenameRewrites oldFilepath oldName newName files
    let b2 := objSet b1 newFilepath (some (updateWikilinks oldName newName content))
    let b3 := if oldFileExists then objSet b2 oldFilepath none else b2
    (.success, if b3.length > 0 then some b3 else none)

example :
    renameNote [("a.md".toList, "x".toList), ("c.md".toList, "see [[a]]".toList)]
        "a".toList "b".toList "x".toList
      = (.success, some [("c.md".toList, some "see [[b]]".toList),
                         ("b.md".toList, some "x".toList),
                         ("a.md".toList, none)]) := by decide
example :
    renameNote [] "a".toList "a".toList "x".toList = (.noOp, none) := by decide
example :
    renameNote [] "a".toList "A".toList "x".toList = (.invalid, none) := by decide
example :
    renameNote [("b.md".toList, "y".toList)] "a".toList "b".toList "x".toList
      = (.duplicate, none) := by decide
example :
    (renameNote [("b.md".toList, [])] "a".toList "b".toList "x".toList).1
      = .success := by decide

/-! ## Move engine (useMoveNotesToFolder in src/unnamed/part_000) -/

/-- `getFolderPrefixes` from src/unnamed/part_000: all folder path
prefixes of a note id (for `a/b/c` the list `[a, a/b]`). -/
def getFolderPrefixes (noteId : Str) : List Str :=
  let parts := splitOnChar '/' noteId
  if parts.length ≤ 1 then []
  else (List.range (parts.length - 1)).map
    (fun i => intercalateChar '/' (parts.take (i + 1)))

/-- One queued move: the old id, the new id, and the source content. -/
structure Move where
  oldId : Str
  newId : Str
  content : Str
  deriving DecidableEq

/-- The classification loop of `useMoveNotesToFolder`: for each input id
in order, look up its content (missing: skipped), compute the new id from
the basename (equal: silently omitted; invalid or destination occupied:
skipped), otherwise queue the move. -/
def classifyMoves (files : List (Str × Str)) (targetFolder : Str) :
    List Str → List Move × List Str
  | [] => ([], [])
  | oldId :: rest =>
    let res := classifyMoves files targetFolder rest
    match List.lookup (oldId ++ mdExt) files with
    | none => (res.1, oldId :: res.2)
    | some content =>
      let basename :=
        if oldId.contains '/' then (splitOnChar '/' oldId).getLastD [] else oldId
      let newId :=
        if targetFolder ≠ [] then targetFolder ++ '/' :: basename else basename
      if newId = oldId then res
      else if !isValidNoteId newId then (res.1, oldId :: res.2)
      else if (List.lookup (newId ++ mdExt) files).isSome ∧
          newId ++ mdExt ≠ oldId ++ mdExt then (res.1, oldId :: res.2)
      else (⟨oldId, newId, content⟩ :: res.1, res.2)

/-- The inner rewrite chain of the move engine's snapshot loop: apply the
Wikilink Rewriter once per queued `(oldId, newId)` pair, in queued order. -/
def rewriteAll (moves : List Move) (c : Str) : Str :=
  moves.foldl (fun acc m => updateWikilinks m.oldId m.newId acc) c

/-- The `for (const [filepath, content] of Object.entries(markdownFiles))`
loop of the move engine: rewrite every snapshot file with every queued
pair and record only the files whose content changed. -/
def buildMoveRewrites (moves : List Move) : List (Str × Str) → Batch
  | [] => []
  | (fp, c) :: rest =>
    let nc := rewriteAll moves c
    if nc = c then buildMoveRewrites moves rest
    else (fp, some nc) :: buildMoveRewrites moves rest

/-- The result of `useMoveNotesToFolder`, together with the emitted batch
(`none` when no `WRITE_FILES` is sent) and the virtual-folder ledger after
the call.  The source's `success: false` variant is never produced, so
`success` is recorded as a plain Boolean. -/
structure MoveResult where
  success : Bool
  moved : Nat
  skipped : List Str
  batch : Option Batch
  virtualFolders : List Str
  deriving DecidableEq

/-- The move engine (`useMoveNotesToFolder`): classify every input id,
return early when nothing is queued, otherwise build the batch (snapshot
rewrites, then for each queued move the relocated file under the new key
and the tombstone for the old key) and reconcile the ledger by removing
the folder prefixes of the queued moves' old ids. -/
def moveMany (files : List (Str × Str)) (virtualFolders : List Str)
    (noteIds : List Str) (targetFolder : Str) : MoveResult :=
  let (moves, skipped) := classifyMoves files targetFolder noteIds
  if moves.isEmpty then
    ⟨true, 0, skipped, none, virtualFolders⟩
  else
    let b1 := buildMoveRewrites moves files
    let b2 := moves.foldl
      (fun b m =>
        objSet (objSet b (m.newId ++ mdExt)
            (some (updateWikilinks m.oldId m.newId m.content)))
          (m.oldId ++ mdExt) none)
      b1
    let folderPrefixesToRemove := moves.flatMap (fun m => getFolderPrefixes m.oldId)
    let vf :=
      if folderPrefixesToRemove ≠ [] then
        virtualFolders.filter (fun p => !folderPrefixesToRemove.contains p)
      else virtualFolders
    ⟨true, moves.length, skipped, some b2, vf⟩

example :
    moveMany [("a/x.md".toList, "P".toList), ("b/y.md".toList, "Q".toList)]
        [] ["a/x".toList, "a/y".toList] "b".toList
      = ⟨true, 1, ["a/y".toList],
         some [("b/x.md".toList, some "P".toList), ("a/x.md".toList, none)],
         []⟩ := by decide
example :
    (moveMany [("x.md".toList, "h".toList)] ["a".toList] ["x".toList]
      "a".toList).virtualFolders = ["a".toList] := by decide
example :
    (moveMany [("a.md".toList, "see [[b]]".toList), ("b.md".toList, "hi".toList)]
        [] ["a".toList, "b".toList] "f".toList).batch
      = some [("a.md".toList, none),
              ("f/a.md".toList, some "see [[b]]".toList),
              ("f/b.md".toList, some "hi".toList),
              ("b.md".toList, none)] := by decide
example :
    moveMany [("a/x.md".toList, "P".toList), ("b/x.md".toList, "Q".toList)]
        [] ["a/x".toList, "b/x".toList] "c".toList
      = ⟨true, 2, [],
         some [("c/x.md".toList, some "Q".toList), ("a/x.md".toList, none),
               ("b/x.md".toList, none)],
         []⟩ := by decide

/-! ## Tag cloud (sortedTagFrequencies in src/components/note-list.tsx) -/

/-- One step of building the JS `Map` of tag frequencies:
`frequencyMap.set(tag, (frequencyMap.get(tag) ?? 0) + 1)`.  A `Map` keeps
insertion order, so a fresh tag is appended at the end. -/
def bump (m : List (Str × Nat)) (t : Str) : List (Str × Nat) :=
  match m with
  | [] => [(t, 1)]
  | (u, n) :: rest => if u = t then (u, n + 1) :: rest else (u, n) :: bump rest t

/-- The frequency map over the flattened tag lists of the result set,
as its insertion-ordered entry list (`[...frequencyMap.entries()]`). -/
def frequencyEntries (childNotes : List (List Str)) : List (Str × Nat) :=
  (childNotes.flatMap id).foldl bump []

/-- The entries other than `t` whose tag starts with `t` (the
`otherTag !== tag && otherTag.startsWith(tag)` filter, computed over the
full entry list). -/
def descendantTags (childNotes : List (List Str)) (t : Str) : List (Str × Nat) :=
  (frequencyEntries childNotes).filter
    (fun o => !(o.1 == t) && t.isPrefixOf o.1)

/-- The two filters of `sortedTagFrequencies` before sorting: drop tags
whose frequency reaches the result-set size, then drop tags all of whose
descendant tags share their frequency. -/
def prunedEntries (childNotes : List (List Str)) : List (Str × Nat) :=
  ((frequencyEntries childNotes).filter
      (fun e => decide (e.2 < childNotes.length))).filter
    (fun e =>
      let childTags := descendantTags childNotes e.1
      childTags.isEmpty || !childTags.all (fun o => o.2 == e.2))

/-- The comparator `(a, b) => b[1] - a[1]` as a total preorder:
descending by frequency. -/
def tagLe (a b : Str × Nat) : Prop := b.2 ≤ a.2

instance : DecidableRel tagLe := fun a b => Nat.decLe b.2 a.2

instance : IsTotal (Str × Nat) tagLe := ⟨fun a b => Nat.le_total b.2 a.2⟩

instance : IsTrans (Str × Nat) tagLe := ⟨fun _ _ _ h h2 => Nat.le_trans h2 h⟩

/-- `sortedTagFrequencies` from src/components/note-list.tsx: the pruned
entries sorted by descending frequency; `Array.prototype.sort` is stable,
which the insertion sort reproduces. -/
def sortedTagFrequencies (childNotes : List (List Str)) : List (Str × Nat) :=
  List.insertionSort tagLe (prunedEntries childNotes)

/-- Modelled from the spec: the number of visible notes carrying a tag
(the spec's stated meaning of a tag-frequency count). -/
def notesCarrying (t : Str) (childNotes : List (List Str)) : Nat :=
  (childNotes.filter (fun tags => tags.contains t)).length

example :
    sortedTagFrequencies [["x".toList, "x/y".toList], ["x".toList, "x/y".toList]]
      = [] := by decide
example :
    sortedTagFrequencies [["x".toList, "x/y".toList], ["x".toList]]
      = [("x/y".toList, 1)] := by decide
example :
    sortedTagFrequencies [["x".toList, "x".toList], [], []]
      = [("x".toList, 2)] := by decide
example : notesCarrying "x".toList [["x".toList, "x".toList], [], []] = 1 := by
  decide
example :
    sortedTagFrequencies [["a".toList], ["b".toList, "c".toList], ["b".toList]]
      = [("b".toList, 2), ("a".toList, 1), ("c".toList, 1)] := by decide

/-! ## Claim C1 -/

/-- C1 (code bug): moving `a` and `b` into folder `f`, where `a`'s content
references `b`, emits a batch whose relocated file `f/a.md` was rewritten
only for its own `(a, f/a)` pair — the reference `[[b]]` survives in it
while `b.md` is tombstoned, so after the batch applies a file references a
note id that no longer exists, contrary to the claim that every file
(including relocated ones) has the rewriter applied once per queued pair. -/
theorem moveMany_relocated_file_keeps_stale_reference :
    let files : List (Str × Str) :=
      [("a.md".toList, "see [[b]]".toList), ("b.md".toList, "hi".toList)]
    let r := moveMany files [] ["a".toList, "b".toList] "f".toList
    let b := r.batch.getD []
    r.success = true ∧ r.moved = 2 ∧ r.skipped = [] ∧
    List.lookup "f/a.md".toList b = some (some "see [[b]]".toList) ∧
    referencesId "see [[b]]".toList "b".toList = true ∧
    List.lookup "b.md".toList (applyBatch files b) = none ∧
    List.lookup "f/a.md".toList (applyBatch files b)
      = some "see [[b]]".toList := by decide

/-! ## Claim C2 -/

/-- C2 counterexample: moving note `x` into the virtual folder `a`
succeeds and introduces the new id `a/x`, whose ancestor folder path `a`
the claim says must be removed from the ledger — but the engine removes
only the old ids' prefixes (here none), so `a` stays in the ledger. -/
theorem moveMany_new_id_ancestor_not_reconciled :
    let r := moveMany [("x.md".toList, "h".toList)] ["a".toList]
      ["x".toList] "a".toList
    r.success = true ∧ r.moved = 1 ∧
    List.lookup "a/x.md".toList (r.batch.getD []) = some (some "h".toList) ∧
    getFolderPrefixes "a/x".toList = ["a".toList] ∧
    r.virtualFolders = ["a".toList] := by decide

/-! ## Claim C5 -/

/-- C5 counterexample: with a file of empty content at `b.md`, renaming
`a` to `b` returns success, although a file exists at the new id's storage
key and that key differs from the old id's — the duplicate guard tests JS
truthiness of the content, not key existence. -/
theorem renameNote_empty_content_duplicate_cex :
    (renameNote [("b.md".toList, [])] "a".toList "b".toList "x".toList).1
        = RenameResult.success ∧
    List.lookup "b.md".toList [(("b.md".toList : Str), ([] : Str))] = some [] ∧
    "b.md".toList ≠ "a.md".toList := by decide

/-! ## Claim C7 -/

/-- C7 counterexample: the underscore is untouched by the slug engine, so
`toSlug "_"` is the non-empty string `_`, which is not a valid note id. -/
theorem toSlug_underscore_invalid_cex :
    toSlug "_".toList ≠ [] ∧ isValidNoteId (toSlug "_".toList) = false := by
  decide

/-! ## Claim C8 -/

/-- C8 counterexample: with one note listing the tag `x` twice and two
untagged notes, the computation displays `x` with count 2, but only one
visible note carries `x` — the count is an occurrence count over the tag
lists, not the number of notes carrying the tag. -/
theorem tag_count_occurrences_cex :
    sortedTagFrequencies [["x".toList, "x".toList], [], []]
        = [("x".toList, 2)] ∧
    notesCarrying "x".toList [["x".toList, "x".toList], [], []] = 1 ∧
    (2 : Nat) ≠ 1 := by decide

/-! ## Claim C9 -/

/-- C9 counterexample: over `{n1: [x, x/y], n2: [x]}` the tag `x` has the
descendant `x/y` with a different count (1 vs 2), so the claim says `x` is
kept — but the shared-by-all filter drops `x` first (its count equals the
result-set size), and the displayed entries are `[(x/y, 1)]` without `x`. -/
theorem tag_pruning_shared_by_all_overrides_cex :
    let R := [["x".toList, "x/y".toList], ["x".toList]]
    ("x".toList, 2) ∈ frequencyEntries R ∧
    ("x/y".toList, 1) ∈ frequencyEntries R ∧
    ("x".toList).isPrefixOf "x/y".toList = true ∧
    "x/y".toList ≠ "x".toList ∧ (1 : Nat) ≠ 2 ∧
    sortedTagFrequencies R = [("x/y".toList, 1)] := by decide

/-! ## Claim C10 -/

/-- C10: two distinct ids with the same basename, both with source files
and an unoccupied shared destination, are both queued; the result reports
`moved = 2` with no skips, yet the batch maps the shared destination key
only to the later note's content and tombstones both old keys, so the
earlier note's content `P` is gone after the batch applies. -/
theorem moveMany_basename_collision_data_loss :
    let files : List (Str × Str) :=
      [("a/x.md".toList, "P".toList), ("b/x.md".toList, "Q".toList)]
    let r := moveMany files [] ["a/x".toList, "b/x".toList] "c".toList
    let b := r.batch.getD []
    r.success = true ∧ r.moved = 2 ∧ r.skipped = [] ∧
    List.lookup "c/x.md".toList b = some (some "Q".toList) ∧
    List.lookup "a/x.md".toList b = some none ∧
    List.lookup "b/x.md".toList b = some none ∧
    (applyBatch files b).all (fun f => !(f.2 == "P".toList)) = true := by decide

/-! ## Claim C6 -/

/-- C6: whenever the rename engine reports a failure (no-op, invalid or
duplicate), it emits no mutation batch — the persistence collaborator is
never invoked and the file set is untouched. -/
theorem renameNote_failure_no_mutation (files : List (Str × Str))
    (oldName newName content : Str)
    (h : (renameNote files oldName newName content).1 ≠ RenameResult.success) :
    (renameNote files oldName newName content).2 = none := by
  by_cases h1 : oldName = [] ∨ newName = [] ∨ oldName = newName
  · simp [renameNote, h1]
  · by_cases h2 : (!isValidNoteId newName) = true
    · simp [renameNote, h1, h2]
    · have hne : ¬ newName = oldName := by
        intro hh
        exact h1 (Or.inr (Or.inr hh.symm))
      by_cases ht : truthy (List.lookup (newName ++ mdExt) files) = true
      · simp [renameNote, h1, h2, hne, ht]
      · exfalso
        apply h
        simp [renameNote, h1, h2, hne, ht]

/-- Witness for C6 at a concrete no-op rename. -/
theorem renameNote_failure_no_mutation_witness :
    (renameNote [] "a".toList "a".toList "x".toList).1 ≠ RenameResult.success ∧
    (renameNote [] "a".toList "a".toList "x".toList).2 = none :=
  ⟨by decide, renameNote_failure_no_mutation [] "a".toList "a".toList
    "x".toList (by decide)⟩

/-- JS truthiness of a looked-up content characterised: present with
non-empty content. -/
theorem truthy_iff (o : Option Str) :
    truthy o = true ↔ ∃ c, o = some c ∧ c ≠ [] := by
  cases o with
  | none => simp [truthy]
  | some c => simp [truthy]

/-- C5 as amended: for non-empty distinct ids with a valid new id, the
rename engine reports `duplicate` iff a file with non-empty content
occupies the new id's storage key (the keys already differ because the ids
do); a file with empty content there is overwritten without a failure. -/
theorem renameNote_duplicate_iff_nonempty_occupant (files : List (Str × Str))
    (oldName newName content : Str)
    (h1 : oldName ≠ []) (h2 : newName ≠ []) (h3 : oldName ≠ newName)
    (h4 : isValidNoteId newName = true) :
    (renameNote files oldName newName content).1 = RenameResult.duplicate ↔
      ∃ c, List.lookup (newName ++ mdExt) files = some c ∧ c ≠ [] := by
  have hor : ¬ (oldName = [] ∨ newName = [] ∨ oldName = newName) := by
    intro h
    rcases h with h | h | h
    · exact h1 h
    · exact h2 h
    · exact h3 h
  have hne : ¬ newName = oldName := fun hh => h3 hh.symm
  rw [← truthy_iff]
  by_cases ht : truthy (List.lookup (newName ++ mdExt) files) = true
  · simp [renameNote, hor, h4, hne, ht]
  · simp [renameNote, hor, h4, hne, ht]

/-- Witness for the amended C5 at a concrete occupied destination. -/
theorem renameNote_duplicate_iff_nonempty_occupant_witness :
    (renameNote [("b.md".toList, "y".toList)] "a".toList "b".toList
      "x".toList).1 = RenameResult.duplicate :=
  (renameNote_duplicate_iff_nonempty_occupant
      [("b.md".toList, "y".toList)] "a".toList "b".toList "x".toList
      (by decide) (by decide) (by decide) (by decide)).mpr
    ⟨"y".toList, by decide, by decide⟩

/-- C2 as amended: the move engine reconciles the virtual-folder ledger by
removing exactly the ancestor folder paths of the queued moves' old ids
(removing nothing when no move is queued); ancestors of the newly
introduced ids are not removed, and the rename engine never touches the
ledger. -/
theorem moveMany_ledger_removes_old_id_ancestors (files : List (Str × Str))
    (virtualFolders : List Str) (noteIds : List Str) (targetFolder : Str) :
    (moveMany files virtualFolders noteIds targetFolder).virtualFolders
      = virtualFolders.filter (fun p =>
          !((classifyMoves files targetFolder noteIds).1.flatMap
              (fun m => getFolderPrefixes m.oldId)).contains p) := by
  rcases hc : classifyMoves files targetFolder noteIds with ⟨moves, skipped⟩
  simp only [moveMany, hc]
  by_cases hm : moves.isEmpty
  · have hmn : moves = [] := by simpa [List.isEmpty_iff] using hm
    simp [hm, hmn]
  · simp only [hm, if_false, Bool.false_eq_true, ite_false]
    by_cases hp : (moves.flatMap fun m => getFolderPrefixes m.oldId) = []
    · simp [hp]
    · simp [hp]

/-! ## Claim C4 -/

/-- Modelled from the spec's wording: the destination id of a move is
`targetFolder/basename(oldId)` where the basename is the last
`/`-delimited segment, or just the basename when the target folder is
empty (root). -/
def moveNewIdSpec (targetFolder oldId : Str) : Str :=
  let basename := (splitOnChar '/' oldId).getLastD []
  if targetFolder = [] then basename else targetFolder ++ '/' :: basename

/-- The move item's source content is absent from the snapshot. -/
def moveSourceMissing (files : List (Str × Str)) (oldId : Str) : Bool :=
  (List.lookup (oldId ++ mdExt) files).isNone

/-- A different file occupies the destination storage key. -/
def moveDestOccupied (files : List (Str × Str)) (targetFolder oldId : Str) :
    Bool :=
  (List.lookup (moveNewIdSpec targetFolder oldId ++ mdExt) files).isSome &&
  !(moveNewIdSpec targetFolder oldId ++ mdExt == oldId ++ mdExt)

/-- The claim's no-op omission: the source exists and its computed new id
equals the old id. -/
def moveOmitted (files : List (Str × Str)) (targetFolder oldId : Str) : Bool :=
  !moveSourceMissing files oldId && (moveNewIdSpec targetFolder oldId == oldId)

/-- The claim's skip classification: missing source, or (for a proper
move) an invalid destination id or an occupied destination key. -/
def moveSkipped (files : List (Str × Str)) (targetFolder oldId : Str) : Bool :=
  moveSourceMissing files oldId ||
  (!(moveNewIdSpec targetFolder oldId == oldId) &&
    (!isValidNoteId (moveNewIdSpec targetFolder oldId) ||
      moveDestOccupied files targetFolder oldId))

/-- The claim's queue classification: source present, proper destination,
valid, unoccupied. -/
def moveQueued (files : List (Str × Str)) (targetFolder oldId : Str) : Bool :=
  !moveSourceMissing files oldId &&
  !(moveNewIdSpec targetFolder oldId == oldId) &&
  isValidNoteId (moveNewIdSpec targetFolder oldId) &&
  !moveDestOccupied files targetFolder oldId

/-- Splitting on a character absent from the list yields that single
segment. -/
theorem splitOnChar_eq_single {sep : Char} : ∀ {l : Str}, sep ∉ l →
    splitOnChar sep l = [l] := by
  intro l
  induction l with
  | nil => intro _; rfl
  | cons c rest ih =>
    intro h
    have hc : ¬ c = sep := fun hh => h (hh ▸ List.mem_cons_self c rest)
    have hr : sep ∉ rest := fun hh => h (List.mem_cons_of_mem c hh)
    simp only [splitOnChar, hc, if_false, ite_false, ih hr]

/-- The move engine's conditional basename agrees with the spec's
unconditional last-segment basename. -/
theorem codeBasename_eq (oldId : Str) :
    (if oldId.contains '/' then (splitOnChar '/' oldId).getLastD [] else oldId)
      = (splitOnChar '/' oldId).getLastD [] := by
  by_cases h : oldId.contains '/' = true
  · rw [if_pos h]
  · have hmem : ('/' : Char) ∉ oldId := by
      intro hm
      exact h (by simpa [List.contains] using (List.elem_iff.mpr hm))
    rw [if_neg h, splitOnChar_eq_single hmem]
    rfl

/-- The classification loop agrees with the spec-side classification:
its skip list is the input filtered by the skip predicate and its queue
length counts the queue predicate; moreover each queued move carries the
spec-side destination id and the looked-up content. -/
theorem classifyMoves_spec (files : List (Str × Str)) (targetFolder : Str) :
    ∀ noteIds : List Str,
      (classifyMoves files targetFolder noteIds).2
          = noteIds.filter (moveSkipped files targetFolder) ∧
      (classifyMoves files targetFolder noteIds).1.length
          = (noteIds.filter (moveQueued files targetFolder)).length := by
  intro noteIds
  induction noteIds with
  | nil => exact ⟨rfl, rfl⟩
  | cons oldId rest ih =>
    obtain ⟨ih2, ih1⟩ := ih
    have hbase := codeBasename_eq oldId
    simp only [classifyMoves]
    cases hl : List.lookup (oldId ++ mdExt) files with
    | none =>
      have hmiss : moveSourceMissing files oldId = true := by
        simp [moveSourceMissing, hl]
      simp [List.filter, moveSkipped, moveQueued, hmiss, ih2, ih1]
    | some content =>
      have hmiss : moveSourceMissing files oldId = false := by
        simp [moveSourceMissing, hl]
      have hnewid :
          (if targetFolder ≠ [] then
              targetFolder ++ '/' ::
                (if oldId.contains '/' then (splitOnChar '/' oldId).getLastD []
                 else oldId)
            else
              (if oldId.contains '/' then (splitOnChar '/' oldId).getLastD []
               else oldId))
            = moveNewIdSpec targetFolder oldId := by
        rw [hbase]
        by_cases htf : targetFolder = []
        · simp [moveNewIdSpec, htf]
        · simp [moveNewIdSpec, htf]
      rw [hnewid]
      by_cases heq : moveNewIdSpec targetFolder oldId = oldId
      · have heqb : (moveNewIdSpec targetFolder oldId == oldId) = true :=
          beq_iff_eq.mpr heq
        simp [List.filter, moveSkipped, moveQueued, hmiss, heq, heqb, ih2, ih1]
      · have heqb : (moveNewIdSpec targetFolder oldId == oldId) = false :=
          beq_eq_false_iff_ne.mpr heq
        by_cases hv : isValidNoteId (moveNewIdSpec targetFolder oldId) = true
        · by_cases hocc :
              (List.lookup (moveNewIdSpec targetFolder oldId ++ mdExt)
                  files).isSome = true ∧
                moveNewIdSpec targetFolder oldId ++ mdExt ≠ oldId ++ mdExt
          · have hoccb : moveDestOccupied files targetFolder oldId = true := by
              simp [moveDestOccupied, hocc.1, hocc.2]
            simp [List.filter, moveSkipped, moveQueued, hmiss, heq, heqb, hv,
              hocc, hoccb, ih2, ih1]
          · have hkeys : moveNewIdSpec targetFolder oldId ++ mdExt
                ≠ oldId ++ mdExt := by
              intro hh
              exact heq (List.append_cancel_right hh)
            have hocc2 :
                (List.lookup (moveNewIdSpec targetFolder oldId ++ mdExt)
                  files).isSome ≠ true := by
              intro hh
              exact hocc ⟨hh, hkeys⟩
            have hoccf :
                (List.lookup (moveNewIdSpec targetFolder oldId ++ mdExt)
                  files).isSome = false := by
              cases hval : (List.lookup (moveNewIdSpec targetFolder oldId
                  ++ mdExt) files).isSome
              · rfl
              · exact absurd hval hocc2
            have hoccb : moveDestOccupied files targetFolder oldId = false := by
              simp [moveDestOccupied, hoccf]
            simp [List.filter, moveSkipped, moveQueued, hmiss, heq, heqb, hv,
              hocc, hkeys, hoccf, hoccb, ih2, ih1]
        · simp [List.filter, moveSkipped, moveQueued, hmiss, heq, heqb, hv,
            ih2, ih1]

/-- Each input id falls in exactly one of the three classes. -/
theorem move_class_trichotomy (files : List (Str × Str))
    (targetFolder oldId : Str) :
    (if moveQueued files targetFolder oldId then 1 else 0) +
      (if moveSkipped files targetFolder oldId then 1 else 0) +
      (if moveOmitted files targetFolder oldId then 1 else 0) = 1 := by
  cases hm : moveSourceMissing files oldId with
  | true => simp [moveQueued, moveSkipped, moveOmitted, hm]
  | false =>
    cases he : moveNewIdSpec targetFolder oldId == oldId with
    | true => simp [moveQueued, moveSkipped, moveOmitted, hm, he]
    | false =>
      cases hv : isValidNoteId (moveNewIdSpec targetFolder oldId) with
      | false => simp [moveQueued, moveSkipped, moveOmitted, hm, he, hv]
      | true =>
        cases ho : moveDestOccupied files targetFolder oldId with
        | true => simp [moveQueued, moveSkipped, moveOmitted, hm, he, hv, ho]
        | false => simp [moveQueued, moveSkipped, moveOmitted, hm, he, hv, ho]

/-- The three class counts partition the input length. -/
theorem move_counts_partition (files : List (Str × Str)) (targetFolder : Str) :
    ∀ noteIds : List Str,
      noteIds.countP (moveQueued files targetFolder) +
        noteIds.countP (moveSkipped files targetFolder) +
        noteIds.countP (moveOmitted files targetFolder) = noteIds.length := by
  intro noteIds
  induction noteIds with
  | nil => rfl
  | cons oldId rest ih =>
    have h := move_class_trichotomy files targetFolder oldId
    simp only [List.countP_cons, List.length_cons]
    omega

/-- C4: every input id is classified exactly once — the skip list is the
input filtered by the spec's skip conditions, the moved count is the
number of ids passing the queue conditions, the per-id classes partition
the input, the count invariant
`moved + |skipped| = |input| - |no-op omissions|` holds, and the result is
a success even when nothing is queued. -/
theorem moveMany_classification_and_count (files : List (Str × Str))
    (virtualFolders : List Str) (noteIds : List Str) (targetFolder : Str) :
    (moveMany files virtualFolders noteIds targetFolder).success = true ∧
    (moveMany files virtualFolders noteIds targetFolder).skipped
      = noteIds.filter (moveSkipped files targetFolder) ∧
    (moveMany files virtualFolders noteIds targetFolder).moved
      = (noteIds.filter (moveQueued files targetFolder)).length ∧
    (moveMany files virtualFolders noteIds targetFolder).moved +
        (moveMany files virtualFolders noteIds targetFolder).skipped.length
      = noteIds.length - noteIds.countP (moveOmitted files targetFolder) := by
  obtain ⟨h2, h1⟩ := classifyMoves_spec files targetFolder noteIds
  have hpart := move_counts_partition files targetFolder noteIds
  have hsucc : (moveMany files virtualFolders noteIds targetFolder).success
      = true := by
    rcases hc : classifyMoves files targetFolder noteIds with ⟨moves, skipped⟩
    by_cases hm : moves.isEmpty <;> simp [moveMany, hc, hm]
  have hskip : (moveMany files virtualFolders noteIds targetFolder).skipped
      = noteIds.filter (moveSkipped files targetFolder) := by
    rcases hc : classifyMoves files targetFolder noteIds with ⟨moves, skipped⟩
    rw [hc] at h2
    by_cases hm : moves.isEmpty <;> simp [moveMany, hc, hm, h2]
  have hmoved : (moveMany files virtualFolders noteIds targetFolder).moved
      = (noteIds.filter (moveQueued files targetFolder)).length := by
    rcases hc : classifyMoves files targetFolder noteIds with ⟨moves, skipped⟩
    rw [hc] at h1
    by_cases hm : moves.isEmpty
    · have hmn : moves = [] := by simpa [List.isEmpty_iff] using hm
      subst hmn
      simp [moveMany, hc, h1.symm]
    · simp [moveMany, hc, hm, h1]
  refine ⟨hsucc, hskip, hmoved, ?_⟩
  rw [hmoved, hskip]
  rw [List.countP_eq_length_filter, List.countP_eq_length_filter] at hpart
  omega

/-! ## Claim C3 -/

/-- Assignment then lookup of the same key. -/
theorem lookup_objSet_self {α : Type} (k : Str) (v : α) :
    ∀ b : List (Str × α), List.lookup k (objSet b k v) = some v := by
  intro b
  induction b with
  | nil => simp [objSet, List.lookup]
  | cons kv rest ih =>
    rcases kv with ⟨k', v'⟩
    by_cases h : k' = k
    · simp [objSet, h, List.lookup]
    · have hb : (k == k') = false := by
        simp [beq_eq_false_iff_ne]
        intro hh
        exact h hh.symm
      simp [objSet, h, List.lookup, hb, ih]

/-- Assignment leaves the other keys' lookups unchanged. -/
theorem lookup_objSet_other {α : Type} (k k' : Str) (v : α) (h : k' ≠ k) :
    ∀ b : List (Str × α),
      List.lookup k' (objSet b k v) = List.lookup k' b := by
  intro b
  induction b with
  | nil =>
    have hb : (k' == k) = false := beq_eq_false_iff_ne.mpr h
    simp [objSet, List.lookup, hb]
  | cons kv rest ih =>
    rcases kv with ⟨k0, v0⟩
    by_cases h0 : k0 = k
    · subst h0
      have hb : (k' == k0) = false := beq_eq_false_iff_ne.mpr h
      simp [objSet, List.lookup, hb]
    · by_cases h1 : k' = k0
      · subst h1
        simp [objSet, h0, List.lookup]
      · have hb : (k' == k0) = false := beq_eq_false_iff_ne.mpr h1
        simp [objSet, h0, List.lookup, hb, ih]

/-- Assignment never produces an empty object. -/
theorem objSet_length_pos {α : Type} (b : List (Str × α)) (k : Str) (v : α) :
    0 < (objSet b k v).length := by
  cases b with
  | nil => simp [objSet]
  | cons kv rest =>
    rcases kv with ⟨k', v'⟩
    by_cases h : k' = k <;> simp [objSet, h]

/-- The rename rewrite loop never records the old file's key. -/
theorem buildRenameRewrites_lookup_oldfp (ofp oldName newName : Str) :
    ∀ files : List (Str × Str),
      List.lookup ofp (buildRenameRewrites ofp oldName newName files)
        = none := by
  intro files
  induction files with
  | nil => rfl
  | cons fc rest ih =>
    rcases fc with ⟨fp, c⟩
    by_cases h : fp = ofp
    · simp [buildRenameRewrites, h, ih]
    · have hb : (ofp == fp) = false := by
        simp [beq_eq_false_iff_ne]
        intro hh
        exact h hh.symm
      by_cases hc : updateWikilinks oldName newName c = c
      · simp [buildRenameRewrites, h, hc, ih]
      · simp [buildRenameRewrites, h, hc, List.lookup, hb, ih]

/-- The rename rewrite loop records no key outside the snapshot. -/
theorem buildRenameRewrites_lookup_not_mem (ofp oldName newName fp : Str) :
    ∀ files : List (Str × Str), fp ∉ files.map Prod.fst →
      List.lookup fp (buildRenameRewrites ofp oldName newName files)
        = none := by
  intro files
  induction files with
  | nil => intro _; rfl
  | cons fc rest ih =>
    rcases fc with ⟨fp', c⟩
    intro hmem
    have hne : fp ≠ fp' := by
      intro hh
      exact hmem (by simp [hh])
    have hrest : fp ∉ rest.map Prod.fst := by
      intro hh
      exact hmem (by simp [hh])
    have hb : (fp == fp') = false := beq_eq_false_iff_ne.mpr hne
    by_cases h : fp' = ofp
    · simp [buildRenameRewrites, h, ih hrest]
    · by_cases hc : updateWikilinks oldName newName c = c
      · simp [buildRenameRewrites, h, hc, ih hrest]
      · simp [buildRenameRewrites, h, hc, List.lookup, hb, ih hrest]

/-- On a snapshot with unique keys, the rename rewrite loop maps each file
other than the old one to its rewritten content exactly when the rewrite
changed it. -/
theorem buildRenameRewrites_lookup_mem (ofp oldName newName : Str) :
    ∀ files : List (Str × Str), (files.map Prod.fst).Nodup →
      ∀ fp c, (fp, c) ∈ files → fp ≠ ofp →
        List.lookup fp (buildRenameRewrites ofp oldName newName files)
          = if updateWikilinks oldName newName c = c then none
            else some (some (updateWikilinks oldName newName c)) := by
  intro files
  induction files with
  | nil => intro _ fp c hmem; exact absurd hmem (List.not_mem_nil _)
  | cons fc rest ih =>
    rcases fc with ⟨fp', c'⟩
    intro hnd fp c hmem hne
    have hnd' := hnd
    rw [List.map_cons, List.nodup_cons] at hnd'
    obtain ⟨hnotin, hndrest⟩ := hnd'
    rcases List.mem_cons.mp hmem with hhead | htail
    · injection hhead with hfp hcc
      subst hfp
      subst hcc
      have hnm : fp ∉ rest.map Prod.fst := hnotin
      by_cases hc : updateWikilinks oldName newName c = c
      · simp [buildRenameRewrites, hne, hc,
          buildRenameRewrites_lookup_not_mem ofp oldName newName fp rest hnm]
      · simp [buildRenameRewrites, hne, hc, List.lookup]
    · have hfpin : fp ∈ rest.map Prod.fst :=
        List.mem_map.mpr ⟨(fp, c), htail, rfl⟩
      have hne' : fp ≠ fp' := by
        intro hh
        exact hnotin (hh ▸ hfpin)
      have hb : (fp == fp') = false := beq_eq_false_iff_ne.mpr hne'
      by_cases h : fp' = ofp
      · simp [buildRenameRewrites, h, ih hndrest fp c htail hne]
      · by_cases hc : updateWikilinks oldName newName c' = c'
        · simp [buildRenameRewrites, h, hc, ih hndrest fp c htail hne]
        · simp [buildRenameRewrites, h, hc, List.lookup, hb,
            ih hndrest fp c htail hne]

/-- Every key the rename rewrite loop records comes from a snapshot file
whose content the rewrite changed, and maps to the rewritten content. -/
theorem buildRenameRewrites_lookup_inv (ofp oldName newName fp : Str)
    (v : Option Str) :
    ∀ files : List (Str × Str),
      List.lookup fp (buildRenameRewrites ofp oldName newName files)
          = some v →
      ∃ c, (fp, c) ∈ files ∧ updateWikilinks oldName newName c ≠ c ∧
        v = some (updateWikilinks oldName newName c) := by
  intro files
  induction files with
  | nil => intro h; simp [buildRenameRewrites, List.lookup] at h
  | cons fc rest ih =>
    rcases fc with ⟨fp', c'⟩
    intro h
    by_cases hfp : fp' = ofp
    · rw [buildRenameRewrites, if_pos hfp] at h
      obtain ⟨c, hc1, hc2, hc3⟩ := ih h
      exact ⟨c, List.mem_cons_of_mem _ hc1, hc2, hc3⟩
    · by_cases hc : updateWikilinks oldName newName c' = c'
      · rw [buildRenameRewrites, if_neg hfp] at h
        simp only [hc, if_pos rfl] at h
        obtain ⟨c, hc1, hc2, hc3⟩ := ih h
        exact ⟨c, List.mem_cons_of_mem _ hc1, hc2, hc3⟩
      · rw [buildRenameRewrites, if_neg hfp] at h
        rw [if_neg hc] at h
        by_cases hfpe : fp = fp'
        · subst hfpe
          rw [List.lookup_cons_self] at h
          exact ⟨c', List.mem_cons_self _ _, hc, (Option.some_inj.mp h).symm⟩
        · have hb : (fp == fp') = false := beq_eq_false_iff_ne.mpr hfpe
          rw [List.lookup] at h
          rw [hb] at h
          obtain ⟨c, hc1, hc2, hc3⟩ := ih h
          exact ⟨c, List.mem_cons_of_mem _ hc1, hc2, hc3⟩

/-- C3: on every successful rename over a snapshot with unique keys, the
emitted batch maps the new id's key to the given content rewritten for
self-references, maps the old id's key to a tombstone exactly when a file
existed there, contains each other snapshot file exactly when the rewrite
changed it (mapped to the rewritten content), and contains nothing else. -/
theorem renameNote_success_batch (files : List (Str × Str))
    (oldName newName content : Str)
    (hnd : (files.map Prod.fst).Nodup)
    (hs : (renameNote files oldName newName content).1
      = RenameResult.success) :
    ∃ b, (renameNote files oldName newName content).2 = some b ∧
      List.lookup (newName ++ mdExt) b
        = some (some (updateWikilinks oldName newName content)) ∧
      List.lookup (oldName ++ mdExt) b
        = (if (List.lookup (oldName ++ mdExt) files).isSome then some none
           else none) ∧
      (∀ fp c, (fp, c) ∈ files → fp ≠ oldName ++ mdExt →
        fp ≠ newName ++ mdExt →
        List.lookup fp b
          = (if updateWikilinks oldName newName c = c then none
             else some (some (updateWikilinks oldName newName c)))) ∧
      (∀ fp v, List.lookup fp b = some v →
        fp = newName ++ mdExt ∨ fp = oldName ++ mdExt ∨
        ∃ c, (fp, c) ∈ files ∧ updateWikilinks oldName newName c ≠ c ∧
          v = some (updateWikilinks oldName newName c)) := by
  by_cases hor : oldName = [] ∨ newName = [] ∨ oldName = newName
  · exact absurd hs (by simp [renameNote, hor])
  · by_cases hinv : (!isValidNoteId newName) = true
    · exact absurd hs (by simp [renameNote, hor, hinv])
    · have hne : ¬ newName = oldName := fun hh => hor (Or.inr (Or.inr hh.symm))
      by_cases ht : truthy (List.lookup (newName ++ mdExt) files) = true
      · exact absurd hs (by simp [renameNote, hor, hinv, hne, ht])
      · have hkeys : newName ++ mdExt ≠ oldName ++ mdExt :=
          fun hh => hne (List.append_cancel_right hh)
        have hkeys2 : oldName ++ mdExt ≠ newName ++ mdExt :=
          fun hh => hkeys hh.symm
        by_cases he : (List.lookup (oldName ++ mdExt) files).isSome = true
        · refine ⟨objSet (objSet (buildRenameRewrites (oldName ++ mdExt)
            oldName newName files) (newName ++ mdExt)
            (some (updateWikilinks oldName newName content)))
            (oldName ++ mdExt) none, ?_, ?_, ?_, ?_, ?_⟩
          · simp [renameNote, hor, hinv, hne, ht, he, objSet_length_pos]
          · rw [lookup_objSet_other _ _ _ hkeys, lookup_objSet_self]
          · rw [lookup_objSet_self, if_pos he]
          · intro fp c hmem hofp hnfp
            rw [lookup_objSet_other _ _ _ hofp,
              lookup_objSet_other _ _ _ hnfp]
            exact buildRenameRewrites_lookup_mem (oldName ++ mdExt) oldName
              newName files hnd fp c hmem hofp
          · intro fp v hl
            by_cases h1 : fp = newName ++ mdExt
            · exact Or.inl h1
            · by_cases h2 : fp = oldName ++ mdExt
              · exact Or.inr (Or.inl h2)
              · rw [lookup_objSet_other _ _ _ h2,
                  lookup_objSet_other _ _ _ h1] at hl
                exact Or.inr (Or.inr (buildRenameRewrites_lookup_inv
                  (oldName ++ mdExt) oldName newName fp v files hl))
        · refine ⟨objSet (buildRenameRewrites (oldName ++ mdExt)
            oldName newName files) (newName ++ mdExt)
            (some (updateWikilinks oldName newName content)), ?_, ?_, ?_, ?_,
            ?_⟩
          · simp [renameNote, hor, hinv, hne, ht, he, objSet_length_pos]
          · rw [lookup_objSet_self]
          · rw [lookup_objSet_other _ _ _ hkeys2,
              buildRenameRewrites_lookup_oldfp, if_neg he]
          · intro fp c hmem hofp hnfp
            rw [lookup_objSet_other _ _ _ hnfp]
            exact buildRenameRewrites_lookup_mem (oldName ++ mdExt) oldName
              newName files hnd fp c hmem hofp
          · intro fp v hl
            by_cases h1 : fp = newName ++ mdExt
            · exact Or.inl h1
            · rw [lookup_objSet_other _ _ _ h1] at hl
              exact Or.inr (Or.inr (buildRenameRewrites_lookup_inv
                (oldName ++ mdExt) oldName newName fp v files hl))

/-- Witness for C3 at a concrete successful rename. -/
theorem renameNote_success_batch_witness :
    ∃ b,
      (renameNote [("a.md".toList, "x".toList),
          ("c.md".toList, "see [[a]]".toList)]
        "a".toList "b".toList "x".toList).2 = some b ∧
      List.lookup "b.md".toList b
        = some (some (updateWikilinks "a".toList "b".toList "x".toList)) := by
  obtain ⟨b, h1, h2, _, _, _⟩ :=
    renameNote_success_batch
      [("a.md".toList, "x".toList), ("c.md".toList, "see [[a]]".toList)]
      "a".toList "b".toList "x".toList (by decide) (by decide)
  exact ⟨b, h1, h2⟩

/-! ## Claims C8 and C9 -/

/-- Bumping a tag then looking it up returns its old count plus one. -/
theorem lookup_bump_self (t : Str) :
    ∀ m : List (Str × Nat),
      List.lookup t (bump m t) = some ((List.lookup t m).getD 0 + 1) := by
  intro m
  induction m with
  | nil => simp [bump, List.lookup]
  | cons un rest ih =>
    rcases un with ⟨u, n⟩
    by_cases h : u = t
    · subst h
      simp [bump, List.lookup]
    · have hb : (t == u) = false := by
        simp [beq_eq_false_iff_ne]
        intro hh
        exact h hh.symm
      simp [bump, h, List.lookup, hb, ih]

/-- Bumping a tag leaves the other tags' counts unchanged. -/
theorem lookup_bump_other (t t' : Str) (h : t' ≠ t) :
    ∀ m : List (Str × Nat), List.lookup t' (bump m t) = List.lookup t' m := by
  intro m
  induction m with
  | nil =>
    have hb : (t' == t) = false := beq_eq_false_iff_ne.mpr h
    simp [bump, List.lookup, hb]
  | cons un rest ih =>
    rcases un with ⟨u, n⟩
    by_cases hu : u = t
    · subst hu
      have hb : (t' == u) = false := beq_eq_false_iff_ne.mpr h
      simp [bump, List.lookup, hb]
    · by_cases hu' : t' = u
      · subst hu'
        simp [bump, hu, List.lookup]
      · have hb : (t' == u) = false := beq_eq_false_iff_ne.mpr hu'
        simp [bump, hu, List.lookup, hb, ih]

/-- The keys of the frequency map after bumping. -/
theorem bump_keys (t : Str) :
    ∀ m : List (Str × Nat),
      (bump m t).map Prod.fst
        = if t ∈ m.map Prod.fst then m.map Prod.fst
          else m.map Prod.fst ++ [t] := by
  intro m
  induction m with
  | nil => simp [bump]
  | cons un rest ih =>
    rcases un with ⟨u, n⟩
    by_cases h : u = t
    · subst h
      simp [bump]
    · have hne : ¬ t = u := fun hh => h hh.symm
      by_cases hmem : t ∈ rest.map Prod.fst
      · simp [bump, h, ih, hmem, hne]
      · simp [bump, h, ih, hmem, hne]

/-- Bumping preserves distinctness of the frequency-map keys. -/
theorem bump_keys_nodup (t : Str) (m : List (Str × Nat))
    (h : (m.map Prod.fst).Nodup) : ((bump m t).map Prod.fst).Nodup := by
  rw [bump_keys]
  by_cases hmem : t ∈ m.map Prod.fst
  · simpa [hmem] using h
  · simp only [hmem, if_false, ite_false]
    exact List.Nodup.append h (List.nodup_singleton t)
      (by simpa using fun hh => hmem hh)

/-- The frequency map built by the fold has distinct keys. -/
theorem foldl_bump_keys_nodup :
    ∀ (l : List Str) (m : List (Str × Nat)), (m.map Prod.fst).Nodup →
      ((l.foldl bump m).map Prod.fst).Nodup := by
  intro l
  induction l with
  | nil => intro m h; simpa using h
  | cons x l ih =>
    intro m h
    exact ih (bump m x) (bump_keys_nodup x m h)

/-- In an association list with distinct keys, membership determines the
lookup. -/
theorem lookup_of_mem_nodup {α : Type} :
    ∀ m : List (Str × α), (m.map Prod.fst).Nodup →
      ∀ t c, (t, c) ∈ m → List.lookup t m = some c := by
  intro m
  induction m with
  | nil => intro _ t c h; exact absurd h (List.not_mem_nil _)
  | cons un rest ih =>
    rcases un with ⟨u, n⟩
    intro hnd t c hmem
    rw [List.map_cons, List.nodup_cons] at hnd
    obtain ⟨hnotin, hndrest⟩ := hnd
    rcases List.mem_cons.mp hmem with hhead | htail
    · injection hhead with h1 h2
      subst h1
      subst h2
      simp [List.lookup]
    · have hin : t ∈ rest.map Prod.fst := List.mem_map.mpr ⟨(t, c), htail, rfl⟩
      have hne : t ≠ u := fun hh => hnotin (hh ▸ hin)
      have hb : (t == u) = false := beq_eq_false_iff_ne.mpr hne
      simp [List.lookup, hb, ih hndrest t c htail]

/-- Looking up a tag in the folded frequency map: its count in the
remaining input plus its count in the accumulator, absent only if it
occurs in neither. -/
theorem lookup_foldl_bump :
    ∀ (l : List Str) (m : List (Str × Nat)) (t : Str),
      List.lookup t (l.foldl bump m)
        = (match List.lookup t m with
           | some n => some (n + l.count t)
           | none => if t ∈ l then some (l.count t) else none) := by
  intro l
  induction l with
  | nil =>
    intro m t
    cases h : List.lookup t m <;> simp [h, List.count]
  | cons x l ih =>
    intro m t
    rw [List.foldl_cons, ih (bump m x) t]
    by_cases hx : t = x
    · subst hx
      rw [lookup_bump_self]
      cases h : List.lookup t m with
      | some n =>
        simp [h, List.count_cons]
        omega
      | none =>
        simp [h, List.count_cons]
        omega
    · rw [lookup_bump_other x t hx]
      have hxb : (x == t) = false := by
        simp [beq_eq_false_iff_ne]
        intro hh
        exact hx hh.symm
      cases h : List.lookup t m with
      | some n => simp [h, List.count_cons, hxb]
      | none => simp [h, List.count_cons, hxb, hx]

/-- Every entry of the frequency map carries the occurrence count of its
tag over the flattened tag lists. -/
theorem mem_frequencyEntries_count (R : List (List Str)) (t : Str) (c : Nat)
    (h : (t, c) ∈ frequencyEntries R) : c = (R.flatMap id).count t := by
  have hnd : ((frequencyEntries R).map Prod.fst).Nodup :=
    foldl_bump_keys_nodup (R.flatMap id) [] (by simp)
  have hl : List.lookup t (frequencyEntries R) = some c :=
    lookup_of_mem_nodup (frequencyEntries R) hnd t c h
  rw [frequencyEntries, lookup_foldl_bump] at hl
  simp only [List.lookup] at hl
  by_cases hm : t ∈ R.flatMap id
  · rw [if_pos hm] at hl
    exact (Option.some_inj.mp hl).symm
  · rw [if_neg hm] at hl
    exact absurd hl (by simp)

/-- C8 as amended: each displayed tag-cloud entry carries the number of
occurrences of its tag across the visible notes' tag lists (equal to the
number of notes carrying the tag when no note repeats a tag), and any tag
whose occurrence count equals the result-set size is excluded from the
displayed entries. -/
theorem sortedTagFrequencies_counts_occurrences (R : List (List Str))
    (t : Str) (c : Nat) :
    ((t, c) ∈ sortedTagFrequencies R → c = (R.flatMap id).count t) ∧
    ((R.flatMap id).count t = R.length →
      (t, c) ∉ sortedTagFrequencies R) := by
  constructor
  · intro hmem
    have hmem' : (t, c) ∈ prunedEntries R :=
      (List.perm_insertionSort tagLe (prunedEntries R)).subset hmem
    have h1 := (List.mem_filter.mp hmem').1
    exact mem_frequencyEntries_count R t c (List.mem_filter.mp h1).1
  · intro hcount hmem
    have hmem' : (t, c) ∈ prunedEntries R :=
      (List.perm_insertionSort tagLe (prunedEntries R)).subset hmem
    have h1 := (List.mem_filter.mp hmem').1
    have hfe := (List.mem_filter.mp h1).1
    have hlt : c < R.length := by
      have := (List.mem_filter.mp h1).2
      simpa using this
    have hc := mem_frequencyEntries_count R t c hfe
    omega

/-- Witness for the amended C8 at a concrete result set. -/
theorem sortedTagFrequencies_counts_occurrences_witness :
    ("x".toList, (1 : Nat)) ∈ sortedTagFrequencies [["x".toList], []] ∧
    (1 : Nat) = (([["x".toList], []].flatMap id).count "x".toList) :=
  ⟨by decide,
    (sortedTagFrequencies_counts_occurrences [["x".toList], []]
      "x".toList 1).1 (by decide)⟩

/-- Filtering a frequency level out of an ordered insert: the inserted
entry lands in front of its own level (stability of the descending sort). -/
theorem filter_orderedInsert (n : Nat) (a : Str × Nat) :
    ∀ s : List (Str × Nat),
      (List.orderedInsert tagLe a s).filter (fun e => e.2 == n)
        = (if a.2 = n then
            a :: s.filter (fun e => e.2 == n)
           else s.filter (fun e => e.2 == n)) := by
  intro s
  induction s with
  | nil =>
    by_cases h : a.2 = n
    · simp [List.orderedInsert, List.filter, h]
    · have hb : (a.2 == n) = false := beq_eq_false_iff_ne.mpr h
      simp [List.orderedInsert, List.filter, h, hb]
  | cons y ys ih =>
    by_cases hr : tagLe a y
    · rw [List.orderedInsert, if_pos hr]
      by_cases h : a.2 = n
      · simp [List.filter_cons, h]
      · have hb : (a.2 == n) = false := beq_eq_false_iff_ne.mpr h
        simp [List.filter_cons, h, hb]
    · rw [List.orderedInsert, if_neg hr]
      have hlt : a.2 < y.2 := Nat.lt_of_not_le (fun hh => hr hh)
      by_cases h : a.2 = n
      · have hyn : (y.2 == n) = false := by
          apply beq_eq_false_iff_ne.mpr
          intro hh
          omega
        simp [List.filter_cons, hyn, ih, h]
      · rw [List.filter_cons, List.filter_cons]
        by_cases hy : (y.2 == n) = true
        · rw [hy]
          simp only [ih, h, if_false, ite_false]
        · have hyb : (y.2 == n) = false := by
            cases hyy : (y.2 == n)
            · rfl
            · exact absurd hyy hy
          rw [hyb]
          simp only [ih, h, if_false, ite_false]

/-- The stable insertion sort keeps each frequency level in encounter
order. -/
theorem filter_insertionSort (n : Nat) :
    ∀ l : List (Str × Nat),
      (List.insertionSort tagLe l).filter (fun e => e.2 == n)
        = l.filter (fun e => e.2 == n) := by
  intro l
  induction l with
  | nil => rfl
  | cons a l ih =>
    rw [List.insertionSort, filter_orderedInsert]
    by_cases h : a.2 = n
    · have hb : (a.2 == n) = true := beq_iff_eq.mpr h
      simp [List.filter_cons, h, hb, ih]
    · have hb : (a.2 == n) = false := beq_eq_false_iff_ne.mpr h
      simp [List.filter_cons, h, hb, ih]

/-- C9 as amended: among the entries surviving the shared-by-all rule
(count below the result-set size), a tag with at least one descendant tag
in the frequency map is displayed exactly when some such descendant's
count differs from its own; the displayed entries are sorted by
descending count and each count level keeps encounter order (the stable
sort of the pruned entries). -/
theorem sortedTagFrequencies_pruning_spec (R : List (List Str)) :
    (∀ t c, (t, c) ∈ sortedTagFrequencies R ↔
      ((t, c) ∈ frequencyEntries R ∧ c < R.length ∧
        (descendantTags R t = [] ∨ ∃ d ∈ descendantTags R t, d.2 ≠ c))) ∧
    List.Sorted tagLe (sortedTagFrequencies R) ∧
    (∀ n, (sortedTagFrequencies R).filter (fun e => e.2 == n)
      = (prunedEntries R).filter (fun e => e.2 == n)) := by
  refine ⟨?_, List.sorted_insertionSort tagLe (prunedEntries R),
    fun n => filter_insertionSort n (prunedEntries R)⟩
  intro t c
  have hperm := List.perm_insertionSort tagLe (prunedEntries R)
  constructor
  · intro hmem
    have hmem' : (t, c) ∈ prunedEntries R := hperm.subset hmem
    obtain ⟨h1, h2⟩ := List.mem_filter.mp hmem'
    obtain ⟨hfe, hlt⟩ := List.mem_filter.mp h1
    have h2' : ((descendantTags R t).isEmpty
        || !(descendantTags R t).all (fun o => o.2 == c)) = true := h2
    refine ⟨hfe, by simpa using hlt, ?_⟩
    cases hie : (descendantTags R t).isEmpty with
    | true => exact Or.inl (List.isEmpty_iff.mp hie)
    | false =>
      right
      have hna : (!(descendantTags R t).all (fun o => o.2 == c)) = true := by
        rw [hie] at h2'
        simpa using h2'
      have hall : ((descendantTags R t).all (fun o => o.2 == c)) = false := by
        cases hca : (descendantTags R t).all (fun o => o.2 == c)
        · rfl
        · rw [hca] at hna
          exact absurd hna (by decide)
      by_contra hnex
      push_neg at hnex
      have hat : (descendantTags R t).all (fun o => o.2 == c) = true := by
        apply List.all_eq_true.mpr
        intro o ho
        exact beq_iff_eq.mpr (hnex o ho)
      rw [hat] at hall
      exact absurd hall (by decide)
  · rintro ⟨hfe, hlt, hcond⟩
    have hpred : ((descendantTags R t).isEmpty
        || !(descendantTags R t).all (fun o => o.2 == c)) = true := by
      rcases hcond with hd | ⟨d, hd1, hd2⟩
      · simp [hd]
      · have hall : ((descendantTags R t).all (fun o => o.2 == c)) = false := by
          cases hca : (descendantTags R t).all (fun o => o.2 == c)
          · rfl
          · exact absurd (beq_iff_eq.mp (List.all_eq_true.mp hca d hd1)) hd2
        rw [hall]
        simp
    have hmem' : (t, c) ∈ prunedEntries R :=
      List.mem_filter.mpr
        ⟨List.mem_filter.mpr ⟨hfe, by simpa using hlt⟩, hpred⟩
    exact hperm.symm.subset hmem'

/-- Witness for the amended C9 at a concrete result set. -/
theorem sortedTagFrequencies_pruning_spec_witness :
    ("x/y".toList, (1 : Nat)) ∈
      sortedTagFrequencies [["x".toList, "x/y".toList], ["x".toList]] :=
  ((sortedTagFrequencies_pruning_spec
      [["x".toList, "x/y".toList], ["x".toList]]).1 "x/y".toList 1).mpr
    (by decide)

/-! ## Claim C7 -/

/-- The character set of the amended claim: ASCII letters, digits, dashes,
slashes, spaces, tabs, newlines and carriage returns — user input made of
these slugifies to a valid id or to nothing. -/
def slugInputChars : List Char :=
  "abcdefghijklmnopqrstuvwxyzABCDEFGHIJKLMNOPQRSTUVWXYZ0123456789-/ \t\n\r".toList

/-- Membership in the amended claim's character set. -/
def slugInputChar (c : Char) : Bool := slugInputChars.contains c

/-- Splitting never yields an empty segment list. -/
theorem splitOnChar_ne_nil (sep : Char) : ∀ l : Str, splitOnChar sep l ≠ [] := by
  intro l
  induction l with
  | nil => simp [splitOnChar]
  | cons c rest ih =>
    by_cases h : c = sep
    · simp [splitOnChar, h]
    · simp only [splitOnChar, h, if_false, ite_false]
      cases hs : splitOnChar sep rest with
      | nil => simp
      | cons s ss => simp

/-- No segment produced by splitting contains the separator. -/
theorem mem_splitOnChar_not_sep (sep : Char) :
    ∀ (l : Str) (s : Str), s ∈ splitOnChar sep l → sep ∉ s := by
  intro l
  induction l with
  | nil =>
    intro s hs
    simp [splitOnChar] at hs
    simp [hs]
  | cons c rest ih =>
    intro s hs
    by_cases h : c = sep
    · rw [splitOnChar, if_pos h] at hs
      rcases List.mem_cons.mp hs with h1 | h1
      · simp [h1]
      · exact ih s h1
    · rw [splitOnChar, if_neg h] at hs
      cases hsp : splitOnChar sep rest with
      | nil => exact absurd hsp (splitOnChar_ne_nil sep rest)
      | cons s0 ss =>
        rw [hsp] at hs
        rcases List.mem_cons.mp hs with h1 | h1
        · subst h1
          intro hmem
          rcases List.mem_cons.mp hmem with h2 | h2
          · exact h h2.symm
          · exact ih s0 (hsp ▸ List.mem_cons_self s0 ss) h2
        · exact ih s (hsp ▸ List.mem_cons_of_mem s0 h1)

/-- Every character of a split segment comes from the original list. -/
theorem mem_of_mem_splitOnChar (sep : Char) :
    ∀ (l : Str) (s : Str), s ∈ splitOnChar sep l → ∀ a ∈ s, a ∈ l := by
  intro l
  induction l with
  | nil =>
    intro s hs a ha
    simp [splitOnChar] at hs
    subst hs
    exact absurd ha (List.not_mem_nil a)
  | cons c rest ih =>
    intro s hs a ha
    by_cases h : c = sep
    · rw [splitOnChar, if_pos h] at hs
      rcases List.mem_cons.mp hs with h1 | h1
      · subst h1
        exact absurd ha (List.not_mem_nil a)
      · exact List.mem_cons_of_mem c (ih s h1 a ha)
    · rw [splitOnChar, if_neg h] at hs
      cases hsp : splitOnChar sep rest with
      | nil => exact absurd hsp (splitOnChar_ne_nil sep rest)
      | cons s0 ss =>
        rw [hsp] at hs
        rcases List.mem_cons.mp hs with h1 | h1
        · subst h1
          rcases List.mem_cons.mp ha with h2 | h2
          · exact h2 ▸ List.mem_cons_self c rest
          · exact List.mem_cons_of_mem c
              (ih s0 (hsp ▸ List.mem_cons_self s0 ss) a h2)
        · exact List.mem_cons_of_mem c
            (ih s (hsp ▸ List.mem_cons_of_mem s0 h1) a ha)

/-- Splitting a list that starts with a separator-free segment followed by
a separator peels off exactly that segment. -/
theorem splitOnChar_append_sep (sep : Char) :
    ∀ (s t : Str), sep ∉ s →
      splitOnChar sep (s ++ sep :: t) = s :: splitOnChar sep t := by
  intro s
  induction s with
  | nil =>
    intro t _
    simp [splitOnChar]
  | cons c s ih =>
    intro t hmem
    have hc : ¬ c = sep := fun hh => hmem (hh ▸ List.mem_cons_self c s)
    have hs : sep ∉ s := fun hh => hmem (List.mem_cons_of_mem c hh)
    simp only [List.cons_append, splitOnChar, hc, if_false, ite_false]
    rw [List.append_eq, ih t hs]

/-- Joining separator-free segments and splitting again restores them. -/
theorem splitOnChar_intercalateChar (sep : Char) :
    ∀ ss : List Str, ss ≠ [] → (∀ s ∈ ss, sep ∉ s) →
      splitOnChar sep (intercalateChar sep ss) = ss := by
  intro ss
  induction ss with
  | nil => intro h; exact absurd rfl h
  | cons s ss ih =>
    intro _ hmem
    cases ss with
    | nil =>
      simp only [intercalateChar]
      exact splitOnChar_eq_single (hmem s (List.mem_cons_self s []))
    | cons s1 ss1 =>
      have hstep : intercalateChar sep (s :: s1 :: ss1)
          = s ++ sep :: intercalateChar sep (s1 :: ss1) := rfl
      rw [hstep, splitOnChar_append_sep sep s _
        (hmem s (List.mem_cons_self s _))]
      rw [ih (by simp) (fun u hu => hmem u (List.mem_cons_of_mem s hu))]

/-- Pointwise character fact, checked over the concrete claim charset:
each allowed character is the slash, or lowercases to a segment character,
or lowercases to whitespace. -/
theorem slugInputChars_lower :
    slugInputChars.all
      (fun c => c == '/' || isSegChar (jsToLower c) || jsWhitespace (jsToLower c))
      = true := by decide

/-- Characters surviving `trim` come from the original list. -/
theorem mem_trimList {a : Char} {l : Str} (h : a ∈ trimList l) : a ∈ l := by
  rw [trimList, List.mem_reverse] at h
  have h1 := (List.dropWhile_sublist jsWhitespace).subset h
  rw [List.mem_reverse] at h1
  exact (List.dropWhile_sublist jsWhitespace).subset h1

/-- Run collapsing yields only the replacement character and the kept
input characters. -/
theorem all_collapseRuns (p q : Char → Bool) (rep : Char)
    (hrep : q rep = true) :
    ∀ (l : Str) (b : Bool), (∀ c ∈ l, p c = true ∨ q c = true) →
      (collapseRuns p rep l b).all q = true := by
  intro l
  induction l with
  | nil => intro b _; rfl
  | cons c cs ih =>
    intro b hall
    have hrest : ∀ x ∈ cs, p x = true ∨ q x = true :=
      fun x hx => hall x (List.mem_cons_of_mem c hx)
    by_cases hp : p c = true
    · cases b with
      | true => simpa [collapseRuns, hp] using ih true hrest
      | false =>
        simp only [collapseRuns, hp, if_pos, if_true, ite_true,
          Bool.false_eq_true, if_false, ite_false]
        rw [List.all_cons, hrep, Bool.true_and]
        exact ih true hrest
    · have hq : q c = true := by
        rcases hall c (List.mem_cons_self c cs) with h | h
        · exact absurd h hp
        · exact h
      have hpb : p c = false := by
        cases hpc : p c
        · rfl
        · exact absurd hpc hp
      simp only [collapseRuns, hpb, Bool.false_eq_true, if_false, ite_false]
      rw [List.all_cons, hq, Bool.true_and]
      exact ih false hrest

/-- Prepending a character keeps the no-double-dash property as long as it
does not butt a dash against a leading dash. -/
theorem noDoubleDash_cons (x : Char) (l : Str)
    (hl : noDoubleDash l = true) (hx : x = '-' → l.head? ≠ some '-') :
    noDoubleDash (x :: l) = true := by
  cases l with
  | nil => rfl
  | cons y ys =>
    rw [noDoubleDash, Bool.and_eq_true]
    refine ⟨?_, hl⟩
    by_cases hxd : x = '-'
    · have hy : ¬ y = '-' := by
        intro hh
        exact hx hxd (by simp [hh])
      simp [hxd, hy]
    · simp [hxd]

/-- The tail of a no-double-dash list also has no double dash. -/
theorem noDoubleDash_tail {x : Char} {l : Str}
    (h : noDoubleDash (x :: l) = true) : noDoubleDash l = true := by
  cases l with
  | nil => rfl
  | cons y ys =>
    rw [noDoubleDash, Bool.and_eq_true] at h
    exact h.2

/-- Collapsing dash runs leaves no double dash, and when the scan is mid
run the output cannot begin with a dash. -/
theorem collapseDash_spec :
    ∀ (l : Str) (b : Bool),
      (b = true →
        (collapseRuns (fun c => c == '-') '-' l b).head? ≠ some '-') ∧
      noDoubleDash (collapseRuns (fun c => c == '-') '-' l b) = true := by
  intro l
  induction l with
  | nil =>
    intro b
    constructor
    · intro _
      simp [collapseRuns]
    · rfl
  | cons c cs ih =>
    intro b
    by_cases hc : c = '-'
    · cases b with
      | true =>
        constructor
        · intro _
          simpa [collapseRuns, hc] using (ih true).1 rfl
        · simpa [collapseRuns, hc] using (ih true).2
      | false =>
        constructor
        · intro hb
          exact absurd hb (by decide)
        · simp only [collapseRuns, hc, beq_self_eq_true, if_pos, if_true,
            ite_true, Bool.false_eq_true, if_false, ite_false]
          exact noDoubleDash_cons '-' _ (ih true).2 (fun _ => (ih true).1 rfl)
    · have hcb : (c == '-') = false := beq_eq_false_iff_ne.mpr hc
      constructor
      · intro _
        simp only [collapseRuns, hcb, Bool.false_eq_true, if_false, ite_false]
        simp [hc]
      · simp only [collapseRuns, hcb, Bool.false_eq_true, if_false, ite_false]
        refine noDoubleDash_cons c _ (ih false).2 (fun hh => absurd hh hc)

/-- Stripping the leading dash keeps any pointwise character property. -/
theorem stripLeadDash_all (q : Char → Bool) (l : Str) (h : l.all q = true) :
    (stripLeadDash l).all q = true := by
  cases l with
  | nil => rfl
  | cons c rest =>
    rw [List.all_cons, Bool.and_eq_true] at h
    by_cases hc : c = '-'
    · simpa [stripLeadDash, hc] using h.2
    · simpa [stripLeadDash, hc, List.all_cons] using And.intro h.1 h.2

/-- Stripping the leading dash preserves the no-double-dash property. -/
theorem stripLeadDash_noDoubleDash (l : Str) (h : noDoubleDash l = true) :
    noDoubleDash (stripLeadDash l) = true := by
  cases l with
  | nil => rfl
  | cons c rest =>
    by_cases hc : c = '-'
    · simpa [stripLeadDash, hc] using noDoubleDash_tail h
    · simpa [stripLeadDash, hc] using h

/-- After stripping the leading dash of a no-double-dash list, the head is
not a dash. -/
theorem stripLeadDash_head (l : Str) (h : noDoubleDash l = true) :
    (stripLeadDash l).head? ≠ some '-' := by
  cases l with
  | nil => simp [stripLeadDash]
  | cons c rest =>
    by_cases hc : c = '-'
    · rw [stripLeadDash, if_pos hc]
      cases rest with
      | nil => simp
      | cons y ys =>
        subst hc
        rw [noDoubleDash, Bool.and_eq_true] at h
        have hy : ¬ y = '-' := by
          intro hh
          subst hh
          simpa using h.1
        simp [hy]
    · rw [stripLeadDash, if_neg hc]
      simp [hc]

/-- Stripping the trailing dash keeps any pointwise character property. -/
theorem stripTrailDash_all (q : Char → Bool) :
    ∀ l : Str, l.all q = true → (stripTrailDash l).all q = true := by
  intro l
  induction l with
  | nil => intro _; rfl
  | cons c rest ih =>
    intro h
    rw [List.all_cons, Bool.and_eq_true] at h
    cases rest with
    | nil =>
      by_cases hc : c = '-'
      · simp [stripTrailDash, hc]
      · simpa [stripTrailDash, hc, List.all_cons] using h.1
    | cons c' rest2 =>
      rw [stripTrailDash, List.all_cons, Bool.and_eq_true]
      exact ⟨h.1, ih h.2⟩

/-- Stripping the trailing dash preserves the head (or empties the list). -/
theorem stripTrailDash_head :
    ∀ l : Str, (stripTrailDash l).head? = l.head? ∨ stripTrailDash l = [] := by
  intro l
  cases l with
  | nil => exact Or.inr rfl
  | cons c rest =>
    cases rest with
    | nil =>
      by_cases hc : c = '-'
      · exact Or.inr (by simp [stripTrailDash, hc])
      · exact Or.inl (by simp [stripTrailDash, hc])
    | cons c' rest2 => exact Or.inl (by simp [stripTrailDash])

/-- Stripping the trailing dash preserves the no-double-dash property. -/
theorem stripTrailDash_noDoubleDash :
    ∀ l : Str, noDoubleDash l = true →
      noDoubleDash (stripTrailDash l) = true := by
  intro l
  induction l with
  | nil => intro _; rfl
  | cons c rest ih =>
    intro h
    cases rest with
    | nil =>
      by_cases hc : c = '-'
      · simp [stripTrailDash, hc, noDoubleDash]
      · simp [stripTrailDash, hc, noDoubleDash]
    | cons c' rest2 =>
      rw [stripTrailDash]
      refine noDoubleDash_cons c _ (ih (noDoubleDash_tail h)) ?_
      intro hc hh
      rcases stripTrailDash_head (c' :: rest2) with hhd | hhd
      · rw [hhd] at hh
        simp only [List.head?_cons, Option.some_inj] at hh
        subst hc
        subst hh
        rw [noDoubleDash, Bool.and_eq_true] at h
        simpa using h.1
      · rw [hhd] at hh
        simp at hh

/-- After stripping the trailing dash of a no-double-dash list, the last
character is not a dash. -/
theorem stripTrailDash_getLast :
    ∀ l : Str, noDoubleDash l = true →
      (stripTrailDash l).getLast? ≠ some '-' := by
  intro l
  induction l with
  | nil => intro _; simp [stripTrailDash]
  | cons c rest ih =>
    intro h
    cases rest with
    | nil =>
      by_cases hc : c = '-'
      · simp [stripTrailDash, hc]
      · simp [stripTrailDash, hc, hc]
    | cons c' rest2 =>
      rw [stripTrailDash]
      cases hst : stripTrailDash (c' :: rest2) with
      | nil =>
        cases rest2 with
        | nil =>
          by_cases hc' : c' = '-'
          · subst hc'
            rw [noDoubleDash, Bool.and_eq_true] at h
            have hcd : ¬ c = '-' := by
              intro hh
              subst hh
              simpa using h.1
            simp [hcd]
          · rw [stripTrailDash, if_neg hc'] at hst
            exact absurd hst (by simp)
        | cons c2 rest3 =>
          rw [stripTrailDash] at hst
          exact absurd hst (by simp)
      | cons z zs =>
        rw [List.getLast?_cons_cons, ← hst]
        exact ih (noDoubleDash_tail h)

/-- A slugified segment over the claim charset is empty or a valid
segment. -/
theorem slugifySegment_valid (s : Str)
    (h : ∀ c ∈ s, slugInputChar c = true ∧ c ≠ '/') :
    slugifySegment s = [] ∨ validSegment (slugifySegment s) = true := by
  have hl1 : ∀ c ∈ (trimList s).map jsToLower,
      isSegChar c = true ∨ jsWhitespace c = true := by
    intro c hc
    obtain ⟨c0, hc0, rfl⟩ := List.mem_map.mp hc
    obtain ⟨hin, hslash⟩ := h c0 (mem_trimList hc0)
    have hmem : c0 ∈ slugInputChars := by
      rw [slugInputChar] at hin
      exact List.elem_iff.mp (by simpa [List.contains] using hin)
    have hfact := List.all_eq_true.mp slugInputChars_lower c0 hmem
    have hsl : (c0 == '/') = false := beq_eq_false_iff_ne.mpr hslash
    rw [hsl] at hfact
    simpa using hfact
  have hl2 : (collapseRuns jsWhitespace '-' ((trimList s).map jsToLower)
      false).all isSegChar = true :=
    all_collapseRuns jsWhitespace isSegChar '-' (by decide) _ false
      (fun c hc => (hl1 c hc).elim Or.inr Or.inl)
  have hl3a : (collapseRuns (fun c => c == '-') '-'
      (collapseRuns jsWhitespace '-' ((trimList s).map jsToLower) false)
      false).all isSegChar = true :=
    all_collapseRuns _ isSegChar '-' (by decide) _ false
      (fun c hc => Or.inr (List.all_eq_true.mp hl2 c hc))
  have hl3nd := (collapseDash_spec
    (collapseRuns jsWhitespace '-' ((trimList s).map jsToLower) false)
    false).2
  have hl4a := stripLeadDash_all isSegChar _ hl3a
  have hl4nd := stripLeadDash_noDoubleDash _ hl3nd
  have hl4h := stripLeadDash_head _ hl3nd
  have hl5a := stripTrailDash_all isSegChar _ hl4a
  have hl5nd := stripTrailDash_noDoubleDash _ hl4nd
  have hl5l := stripTrailDash_getLast _ hl4nd
  by_cases hemp : slugifySegment s = []
  · exact Or.inl hemp
  · right
    have hs5 : slugifySegment s
        = stripTrailDash (stripLeadDash (collapseRuns (fun c => c == '-') '-'
            (collapseRuns jsWhitespace '-' ((trimList s).map jsToLower)
              false) false)) := rfl
    have hhead : (slugifySegment s).head? ≠ some '-' := by
      rw [hs5]
      rcases stripTrailDash_head (stripLeadDash
          (collapseRuns (fun c => c == '-') '-'
            (collapseRuns jsWhitespace '-' ((trimList s).map jsToLower)
              false) false)) with hhd | hhd
      · rw [hhd]
        exact hl4h
      · rw [hhd]
        simp
    have h1 : (slugifySegment s).isEmpty = false := by
      cases hsl : slugifySegment s with
      | nil => exact absurd hsl hemp
      | cons a b => rfl
    have h2 : ((slugifySegment s).head? == some '-') = false :=
      beq_eq_false_iff_ne.mpr hhead
    have h3 : ((slugifySegment s).getLast? == some '-') = false :=
      beq_eq_false_iff_ne.mpr (hs5 ▸ hl5l)
    have h4 : (slugifySegment s).all isSegChar = true := hs5 ▸ hl5a
    have h5 : noDoubleDash (slugifySegment s) = true := hs5 ▸ hl5nd
    rw [validSegment, h1, h2, h3, h4, h5]
    rfl

/-- A valid segment extracts its character property. -/
theorem validSegment_all_isSegChar (s : Str) (h : validSegment s = true) :
    s.all isSegChar = true := by
  rw [validSegment] at h
  simp only [Bool.and_eq_true] at h
  exact h.1.1.1.2

/-- C7 as amended: for every input made only of ASCII letters, digits,
dashes, slashes and whitespace, a non-empty `toSlug` result is a valid
note id.  (For arbitrary input the claim fails: characters such as the
underscore pass through slugification untouched.) -/
theorem isValidNoteId_toSlug_of_slug_charset (l : Str)
    (hall : l.all slugInputChar = true) (hne : toSlug l ≠ []) :
    isValidNoteId (toSlug l) = true := by
  have htos : toSlug l = intercalateChar '/'
      (((splitOnChar '/' l).map slugifySegment).filter
        (fun s => !s.isEmpty)) := rfl
  have hvalid : ∀ s ∈ ((splitOnChar '/' l).map slugifySegment).filter
      (fun s => !s.isEmpty), validSegment s = true := by
    intro s hs
    obtain ⟨hmem, hpred⟩ := List.mem_filter.mp hs
    obtain ⟨seg, hseg, rfl⟩ := List.mem_map.mp hmem
    have hchars : ∀ c ∈ seg, slugInputChar c = true ∧ c ≠ '/' := by
      intro c hc
      refine ⟨List.all_eq_true.mp hall c
        (mem_of_mem_splitOnChar '/' l seg hseg c hc), ?_⟩
      intro hh
      exact (mem_splitOnChar_not_sep '/' l seg hseg) (hh ▸ hc)
    rcases slugifySegment_valid seg hchars with hnil | hv
    · rw [hnil] at hpred
      exact absurd hpred (by decide)
    · exact hv
  have hnosep : ∀ s ∈ ((splitOnChar '/' l).map slugifySegment).filter
      (fun s => !s.isEmpty), ('/' : Char) ∉ s := by
    intro s hs hmem
    have hall' := validSegment_all_isSegChar s (hvalid s hs)
    have := List.all_eq_true.mp hall' '/' hmem
    exact absurd this (by decide)
  have hssne : ((splitOnChar '/' l).map slugifySegment).filter
      (fun s => !s.isEmpty) ≠ [] := by
    intro hh
    rw [htos, hh] at hne
    exact hne rfl
  rw [htos, isValidNoteId, splitOnChar_intercalateChar '/' _ hssne hnosep]
  exact List.all_eq_true.mpr hvalid

/-- Witness for the amended C7 at a concrete mixed-case path input. -/
theorem isValidNoteId_toSlug_of_slug_charset_witness :
    ("My Note/Sub".toList).all slugInputChar = true ∧
    toSlug "My Note/Sub".toList ≠ [] ∧
    isValidNoteId (toSlug "My Note/Sub".toList) = true :=
  ⟨by decide, by decide,
    isValidNoteId_toSlug_of_slug_charset "My Note/Sub".toList (by decide)
      (by decide)⟩
